import Mathlib

/-!
Verification of the screencap capability-negotiation and text-parsing core.

Lines and strings are modelled as `List Char`.  The source language indexes
strings by UTF-8 byte offsets and slicing at a non-boundary offset aborts the
program; we model byte offsets with `Char.utf8Size` and an aborted slice as
`none` (propagated as `PanicOr.panic`).  Whitespace is modelled with
`Char.isWhitespace` (the realistic inputs are ASCII).  The process
environment and the filesystem are abstracted as explicit parameters.
-/

/-- Convert a string literal to the character-list representation used here. -/
def str (s : String) : List Char := s.toList

/-- Total UTF-8 byte length of a character list (models Rust `str::len`). -/
def utf8Len (s : List Char) : Nat := (s.map Char.utf8Size).sum

/-- Drop the first `n` bytes; `none` when `n` is not a character boundary
(models the abort of byte-slicing at a non-boundary offset). -/
def byteDrop : List Char → Nat → Option (List Char)
  | s, 0 => some s
  | [], _ + 1 => none
  | c :: cs, n + 1 =>
    if c.utf8Size ≤ n + 1 then byteDrop cs (n + 1 - c.utf8Size) else none

/-- Take the first `n` bytes; `none` when `n` is not a character boundary. -/
def byteTake : List Char → Nat → Option (List Char)
  | _, 0 => some []
  | [], _ + 1 => none
  | c :: cs, n + 1 =>
    if c.utf8Size ≤ n + 1 then (byteTake cs (n + 1 - c.utf8Size)).map (c :: ·)
    else none

/-- Byte slice `s[a..b]` (models Rust `&s[a..b]`; `none` models the abort). -/
def byteSlice (s : List Char) (a b : Nat) : Option (List Char) :=
  if a ≤ b then (byteDrop s a).bind (fun t => byteTake t (b - a)) else none

/-- Remove leading and trailing whitespace (models `str::trim`). -/
def trim (s : List Char) : List Char :=
  ((s.dropWhile Char.isWhitespace).reverse.dropWhile Char.isWhitespace).reverse

/-- Split at the first whitespace character: the part strictly before it and
the remainder starting with it.  `none` when no whitespace occurs (models
`line.find(char::is_whitespace)` followed by slicing at the found offset,
which is always a character boundary). -/
def splitAtWS (s : List Char) : Option (List Char × List Char) :=
  if s.any Char.isWhitespace then
    some (s.takeWhile (fun c => !c.isWhitespace), s.dropWhile (fun c => !c.isWhitespace))
  else none

/-- Split on a separator character (models `str::split(sep)`); the result is
always non-empty and empty fields are kept. -/
def splitSep (sep : Char) : List Char → List (List Char)
  | [] => [[]]
  | c :: cs =>
    if c = sep then [] :: splitSep sep cs
    else
      match splitSep sep cs with
      | [] => [[c]]
      | g :: gs => (c :: g) :: gs

/-- Accumulator-based worker for `splitWS`. -/
def splitWSAux : List Char → List Char → List (List Char)
  | [], acc => if acc.isEmpty then [] else [acc.reverse]
  | c :: cs, acc =>
    if c.isWhitespace then
      if acc.isEmpty then splitWSAux cs [] else acc.reverse :: splitWSAux cs []
    else splitWSAux cs (c :: acc)

/-- Split on runs of whitespace, discarding empty fields (models
`str::split_whitespace`). -/
def splitWS (s : List Char) : List (List Char) := splitWSAux s []

/-- Substring containment test (models `str::contains` with a string
pattern). -/
def substrContains (needle : List Char) : List Char → Bool
  | [] => needle.isEmpty
  | c :: t => needle.isPrefixOf (c :: t) || substrContains needle t

/-- Result of running a piece of code that may abort the program. -/
inductive PanicOr (α : Type) where
  | panic : PanicOr α
  | ok : α → PanicOr α
deriving DecidableEq

/-- Media kind classification of a capability row (source enum `Type`;
renamed because `Type` is reserved here). -/
inductive MediaKind where
  | Audio
  | Video
  | Subtitle
  | Format
deriving DecidableEq

/-- One parsed capability row (source struct `FFMPEGSupport`). -/
structure FFMPEGSupport where
  names : List (List Char)
  description : List Char
  decode : Bool
  encode : Bool
deriving DecidableEq

/-- Classify a capability code (source `impl FromStr for Type`).  `ok none`
models `Err(())`; `panic` models the abort of `&s[0..1]` / `&s[2..3]` at a
non-boundary byte offset. -/
def MediaKind.from_str (s : List Char) : PanicOr (Option MediaKind) :=
  if s = ['D'] ∨ s = ['E'] ∨ s = ['D', 'E'] then .ok (some .Format)
  else if utf8Len s ≠ 6 then .ok none
  else
    match byteSlice s 0 1, byteSlice s 2 3 with
    | some a, some b =>
      if a = ['A'] ∨ b = ['A'] then .ok (some .Audio)
      else if a = ['V'] ∨ b = ['V'] then .ok (some .Video)
      else if a = ['S'] ∨ b = ['S'] then .ok (some .Subtitle)
      else .ok none
    | _, _ => .panic

/-- Decode/encode flags of a row (source `decode_line` lines 225-228):
`Format` rows test substring containment of `D` / `E`; all other kinds test
the byte slices `code[0..1] == "D"` and `code[1..2] == "E"`.  `none` models
the abort of slicing at a non-boundary offset. -/
def flagsFor (kind : MediaKind) (code : List Char) : Option (Bool × Bool) :=
  match kind with
  | .Format => some (code.contains 'D', code.contains 'E')
  | _ =>
    match byteSlice code 0 1, byteSlice code 1 2 with
    | some a, some b => some (a == ['D'], b == ['E'])
    | _, _ => none

/-- Per-line capability decoder (source `FFMPEGSupport::decode_line`).
`ok none` models `None` (the line is skipped); `panic` models an abort
inside the byte-indexed shape checks. -/
def decode_line (line0 : List Char) : PanicOr (Option (FFMPEGSupport × MediaKind)) :=
  match splitAtWS (trim line0) with
  | none => .ok none
  | some (rawCode, rest0) =>
    match MediaKind.from_str (trim rawCode) with
    | .panic => .panic
    | .ok none => .ok none
    | .ok (some kind) =>
      match splitAtWS (trim rest0) with
      | none => .ok none
      | some (rawNames, rest1) =>
        match flagsFor kind (trim rawCode) with
        | none => .panic
        | some (d, e) =>
          .ok (some (⟨splitSep ',' (trim rawNames), trim rest1, d, e⟩, kind))

/-- The code token of a line: the trimmed run of non-whitespace characters at
the start of the trimmed line (the `code` intermediate of `decode_line`). -/
def codeOf (line : List Char) : List Char :=
  trim ((trim line).takeWhile (fun c => !c.isWhitespace))

/-- Alias membership test (source `FFMPEGSupport::has_name`). -/
def FFMPEGSupport.has_name (c : FFMPEGSupport) (n : List Char) : Bool :=
  c.names.contains n

/-- Canonical name (source `FFMPEGSupport::name`, which indexes `names[0]`;
totalised with a default that is never reached on parser output). -/
def FFMPEGSupport.name (c : FFMPEGSupport) : List Char :=
  c.names.headD []

/-- Abstraction of the process environment and filesystem consulted by
executable resolution: the `PATH` variable, an existence test and an
executability test (the latter is never consulted by the source). -/
structure Env where
  path : Option (List Char)
  pathExists : List Char → Bool
  isExec : List Char → Bool

/-- Append a file name to a directory (models `PathBuf::push` for the cases
arising here: an absolute argument replaces the path, otherwise a separator
is inserted when needed). -/
def pathPush (p b : List Char) : List Char :=
  if b.head? = some '/' then b
  else if p = [] then b
  else if p.getLast? = some '/' then p ++ b
  else p ++ '/' :: b

/-- Executable resolution (source `which`): a `./`-relative name that exists
is used directly; otherwise the first `PATH` entry whose join with the name
exists is used; `none` when `PATH` is unset or nothing matches. -/
def which (env : Env) (binary : List Char) : Option (List Char) :=
  if (str "./").isPrefixOf binary && env.pathExists binary then some binary
  else
    match env.path with
    | none => none
    | some p =>
      (((splitSep ':' p).map (fun d => pathPush d binary)).filter env.pathExists).head?

/-- Find the first line satisfying the predicate; returns the remaining lines
and the matched line (source `get_line`; `none` models the abort of
`expect` when no line matches). -/
def get_line (lines : List (List Char)) (p : List Char → Bool) :
    Option (List (List Char) × List Char) :=
  match lines.dropWhile (fun s => !p s) with
  | [] => none
  | l :: rest => some (rest, l)

/-- The nth whitespace-delimited token of a line (source `line_nth`; `none`
models the abort of `expect` when fewer than `nth + 1` tokens exist). -/
def line_nth (line : List Char) (nth : Nat) : Option (List Char) :=
  (splitWS (trim line)).get? nth

/-- Find the first matching line and extract its nth token (source
`get_nth_from_line`). -/
def get_nth_from_line (lines : List (List Char)) (p : List Char → Bool) (nth : Nat) :
    Option (List (List Char) × List Char) :=
  match get_line lines p with
  | none => none
  | some (rest, l) =>
    match line_nth l nth with
    | none => none
    | some t => some (rest, t)

/-- Pointwise-function model of the `HashMap` insert used by `find_codec`. -/
def insertFound (m : List Char → Option FFMPEGSupport) (k : List Char)
    (v : FFMPEGSupport) : List Char → Option FFMPEGSupport :=
  fun q => if q = k then some v else m q

/-- One iteration of the scan loop of `find_codec`: record the codec under
every candidate name it carries, provided it satisfies the filter. -/
def stepCodec (names : List (List Char)) (filter : FFMPEGSupport → Bool)
    (m : List Char → Option FFMPEGSupport) (codec : FFMPEGSupport) :
    List Char → Option FFMPEGSupport :=
  names.foldl
    (fun m n => if codec.has_name n && filter codec then insertFound m n codec else m) m

/-- Codec selection (source `find_codec`): scan all records remembering, per
candidate name, the last matching record that satisfies the filter; then
return the canonical name for the first candidate (in list order) that was
remembered, or `none`. -/
def find_codec (codecs : List FFMPEGSupport) (names : List (List Char))
    (filter : FFMPEGSupport → Bool) : Option (List Char) :=
  let found := codecs.foldl (stepCodec names filter) (fun _ => none)
  match names.find? (fun n => (found n).isSome) with
  | some n => (found n).map FFMPEGSupport.name
  | none => none

/-- Display identifier composition (source `x11_screen`): the value of the
display environment variable followed by `.0`; `none` models the abort of
`expect` when the variable is unset. -/
def x11_screen (display : Option (List Char)) : Option (List Char) :=
  display.map (fun d => d ++ str ".0")

/-- Full-screen region resolution (source `x11_fullscreen`), abstracted over
the display-information tool output lines and the display variable. -/
def x11_fullscreen (lines : List (List Char)) (display : Option (List Char)) :
    Option (List Char × List Char) :=
  match get_line lines (fun l => substrContains (str "screen #0") l) with
  | none => none
  | some (rest, _) =>
    match get_nth_from_line rest (fun l => substrContains (str "dimensions:") l) 1 with
    | none => none
    | some (_, dims) =>
      match x11_screen display with
      | none => none
      | some scr => some (dims, scr ++ str "+0,0")

/-- Active-window identifier extraction (source `x11_window`), abstracted
over the window-property tool output lines. -/
def x11_window (lines : List (List Char)) : Option (List Char) :=
  match get_nth_from_line lines (fun l => substrContains (str "_NET_ACTIVE_WINDOW") l) 4 with
  | none => none
  | some (_, wid) => some wid

/-- Current-window region resolution (source `x11_current_window`),
abstracted over the window-property tool output, the geometry tool output as
a function of the window identifier, and the display variable. -/
def x11_current_window (xpropLines : List (List Char))
    (wininfo : List Char → List (List Char)) (display : Option (List Char)) :
    Option (List Char × List Char) :=
  match x11_window xpropLines with
  | none => none
  | some wid =>
    match get_nth_from_line (wininfo wid)
        (fun l => substrContains (str "Absolute upper-left X:") l) 3 with
    | none => none
    | some (lines1, xpos) =>
      match get_nth_from_line lines1
          (fun l => substrContains (str "Absolute upper-left Y:") l) 3 with
      | none => none
      | some (lines2, ypos) =>
        match get_nth_from_line lines2 (fun l => substrContains (str "Width:") l) 1 with
        | none => none
        | some (lines3, width) =>
          match get_nth_from_line lines3 (fun l => substrContains (str "Height:") l) 1 with
          | none => none
          | some (_, height) =>
            match x11_screen display with
            | none => none
            | some scr =>
              some (width ++ 'x' :: height, scr ++ '+' :: xpos ++ ',' :: ypos)

/-! ## Helper lemmas -/

theorem splitSep_ne_nil (sep : Char) (s : List Char) : splitSep sep s ≠ [] := by
  induction s with
  | nil => simp [splitSep]
  | cons c cs ih =>
    simp only [splitSep]
    split
    · simp
    · cases h : splitSep sep cs with
      | nil => simp
      | cons g gs => simp

theorem mem_trim {c : Char} {s : List Char} (h : c ∈ trim s) : c ∈ s := by
  unfold trim at h
  rw [List.mem_reverse] at h
  have h2 := (List.dropWhile_sublist (l := (s.dropWhile Char.isWhitespace).reverse)
    Char.isWhitespace).mem h
  rw [List.mem_reverse] at h2
  exact (List.dropWhile_sublist (l := s) Char.isWhitespace).mem h2

theorem utf8Len_ascii {s : List Char} (h : ∀ c ∈ s, c.utf8Size = 1) :
    utf8Len s = s.length := by
  induction s with
  | nil => rfl
  | cons c cs ih =>
    have hc : c.utf8Size = 1 := h c (by simp)
    have := ih (fun x hx => h x (by simp [hx]))
    simp [utf8Len, List.map_cons, List.sum_cons, hc] at this ⊢
    omega

theorem byteDrop_ascii {s : List Char} (h : ∀ c ∈ s, c.utf8Size = 1) :
    ∀ n, n ≤ s.length → byteDrop s n = some (s.drop n) := by
  induction s with
  | nil =>
    intro n hn
    have hn0 : n = 0 := by simpa using hn
    subst hn0; rfl
  | cons c cs ih =>
    intro n hn
    cases n with
    | zero => rfl
    | succ m =>
      have hc : c.utf8Size = 1 := h c (by simp)
      simp only [byteDrop, hc]
      rw [if_pos (by omega)]
      have : m + 1 - 1 = m := by omega
      rw [this]
      exact ih (fun x hx => h x (by simp [hx])) m (by simpa using hn)

theorem byteTake_ascii {s : List Char} (h : ∀ c ∈ s, c.utf8Size = 1) :
    ∀ n, n ≤ s.length → byteTake s n = some (s.take n) := by
  induction s with
  | nil =>
    intro n hn
    have hn0 : n = 0 := by simpa using hn
    subst hn0; rfl
  | cons c cs ih =>
    intro n hn
    cases n with
    | zero => rfl
    | succ m =>
      have hc : c.utf8Size = 1 := h c (by simp)
      simp only [byteTake, hc]
      rw [if_pos (by omega)]
      have : m + 1 - 1 = m := by omega
      rw [this, ih (fun x hx => h x (by simp [hx])) m (by simpa using hn)]
      rfl

theorem byteSlice_ascii {s : List Char} (h : ∀ c ∈ s, c.utf8Size = 1)
    {a b : Nat} (hab : a ≤ b) (hb : b ≤ s.length) :
    byteSlice s a b = some ((s.drop a).take (b - a)) := by
  unfold byteSlice
  rw [if_pos hab, byteDrop_ascii h a (le_trans hab hb)]
  have hdrop : ∀ c ∈ s.drop a, c.utf8Size = 1 :=
    fun c hc => h c (List.mem_of_mem_drop hc)
  have hlen : b - a ≤ (s.drop a).length := by
    rw [List.length_drop]; omega
  simp [byteTake_ascii hdrop (b - a) hlen]

theorem byteSlice_zero_one {s a : List Char} (h : byteSlice s 0 1 = some a) :
    ∃ c cs, s = c :: cs ∧ c.utf8Size = 1 ∧ a = [c] := by
  unfold byteSlice byteDrop at h
  rw [if_pos (by omega)] at h
  cases s with
  | nil => simp [byteTake] at h
  | cons c cs =>
    simp only [Option.bind_some] at h
    by_cases hc : c.utf8Size ≤ 1
    · have hc1 : c.utf8Size = 1 := le_antisymm hc (Char.utf8Size_pos c)
      simp [byteTake, hc1] at h
      exact ⟨c, cs, rfl, hc1, h.symm⟩
    · simp [byteTake, if_neg (by omega : ¬ c.utf8Size ≤ 0 + 1)] at h

theorem byteSlice_one_two {s b : List Char} (h : byteSlice s 1 2 = some b) :
    ∃ c0 c1 cs, s = c0 :: c1 :: cs ∧ c0.utf8Size = 1 ∧ c1.utf8Size = 1 ∧ b = [c1] := by
  unfold byteSlice at h
  rw [if_pos (by omega)] at h
  cases s with
  | nil => simp [byteDrop] at h
  | cons c0 cs0 =>
    by_cases hc0 : c0.utf8Size ≤ 1
    · have hc01 : c0.utf8Size = 1 := le_antisymm hc0 (Char.utf8Size_pos c0)
      simp only [byteDrop, hc01, if_pos (by omega : (1:Nat) ≤ 0 + 1)] at h
      have h1 : (1 : Nat) - 1 = 0 := by omega
      rw [show (0:Nat) + 1 - 1 = 0 by omega] at h
      simp only [byteDrop, Option.bind_some] at h
      cases cs0 with
      | nil => simp [byteTake] at h
      | cons c1 cs =>
        by_cases hc1 : c1.utf8Size ≤ 1
        · have hc11 : c1.utf8Size = 1 := le_antisymm hc1 (Char.utf8Size_pos c1)
          simp [byteTake, hc11, show (2:Nat) - 1 = 1 by omega] at h
          exact ⟨c0, c1, cs, rfl, hc01, hc11, h.symm⟩
        · simp [byteTake, show (2:Nat) - 1 = 1 by omega,
            if_neg (by omega : ¬ c1.utf8Size ≤ 1)] at h
    · simp [byteDrop, if_neg (by omega : ¬ c0.utf8Size ≤ 0 + 1)] at h

theorem splitAtWS_eq_some {s a b : List Char} (h : splitAtWS s = some (a, b)) :
    a = s.takeWhile (fun c => !c.isWhitespace) ∧
    b = s.dropWhile (fun c => !c.isWhitespace) := by
  unfold splitAtWS at h
  split at h
  · simp only [Option.some.injEq, Prod.mk.injEq] at h
    exact ⟨h.1.symm, h.2.symm⟩
  · simp at h

theorem decode_line_ok_inv {line : List Char} {r : FFMPEGSupport} {k : MediaKind}
    (h : decode_line line = .ok (some (r, k))) :
    MediaKind.from_str (codeOf line) = .ok (some k) ∧
    flagsFor k (codeOf line) = some (r.decode, r.encode) ∧
    ∃ ns, r.names = splitSep ',' ns := by
  unfold decode_line at h
  split at h
  · simp at h
  next rawCode rest0 heq =>
    have hcode : trim rawCode = codeOf line := by
      obtain ⟨h1, _⟩ := splitAtWS_eq_some heq
      rw [codeOf, h1]
    split at h
    · simp at h
    · simp at h
    next kind heq2 =>
      split at h
      · simp at h
      next rawNames rest1 heq3 =>
        split at h
        · simp at h
        next d e heq4 =>
          simp only [PanicOr.ok.injEq, Option.some.injEq, Prod.mk.injEq] at h
          obtain ⟨hrec, hkind⟩ := h
          subst hkind
          rw [hcode] at heq2 heq4
          refine ⟨heq2, ?_, ?_⟩
          · rw [← hrec]
            exact heq4
          · exact ⟨trim rawNames, by rw [← hrec]⟩

theorem from_str_ascii_no_panic {s : List Char} (ha : ∀ c ∈ s, c.utf8Size = 1) :
    MediaKind.from_str s ≠ .panic := by
  unfold MediaKind.from_str
  split
  · simp
  · split
    · simp
    next h6 =>
      have hl : utf8Len s = s.length := utf8Len_ascii ha
      have hlen : s.length = 6 := by omega
      rw [byteSlice_ascii ha (by omega) (by omega : 1 ≤ s.length),
        byteSlice_ascii ha (by omega) (by omega : 3 ≤ s.length)]
      dsimp only
      split
      · simp
      · split
        · simp
        · split <;> simp

theorem from_str_len {s : List Char} {k : MediaKind}
    (h : MediaKind.from_str s = .ok (some k)) (hk : k ≠ .Format) : utf8Len s = 6 := by
  unfold MediaKind.from_str at h
  split at h
  · simp only [PanicOr.ok.injEq, Option.some.injEq] at h
    exact absurd h.symm hk
  · split at h
    · simp at h
    next h6 => omega

theorem flagsFor_ascii {s : List Char} {k : MediaKind} (ha : ∀ c ∈ s, c.utf8Size = 1)
    (h : MediaKind.from_str s = .ok (some k)) : ∃ de, flagsFor k s = some de := by
  have key : k ≠ .Format → ∃ de, flagsFor k s = some de := by
    intro hk
    have h6 := from_str_len h hk
    have hl : utf8Len s = s.length := utf8Len_ascii ha
    have hlen : s.length = 6 := by omega
    unfold flagsFor
    rw [byteSlice_ascii ha (by omega) (by omega : 1 ≤ s.length),
      byteSlice_ascii ha (by omega) (by omega : 2 ≤ s.length)]
    cases k with
    | Format => exact absurd rfl hk
    | Audio => exact ⟨_, rfl⟩
    | Video => exact ⟨_, rfl⟩
    | Subtitle => exact ⟨_, rfl⟩
  cases k with
  | Format => exact ⟨_, rfl⟩
  | Audio => exact key (by simp)
  | Video => exact key (by simp)
  | Subtitle => exact key (by simp)

theorem decode_line_ascii_total {line : List Char}
    (h : ∀ c ∈ (trim line).takeWhile (fun c => !c.isWhitespace), c.utf8Size = 1) :
    ∃ res, decode_line line = .ok res := by
  unfold decode_line
  cases hs : splitAtWS (trim line) with
  | none => exact ⟨none, by simp [hs]⟩
  | some pair =>
    obtain ⟨rawCode, rest0⟩ := pair
    obtain ⟨ha1, _⟩ := splitAtWS_eq_some hs
    have hraw : ∀ c ∈ rawCode, c.utf8Size = 1 := by
      intro c hc
      exact h c (ha1 ▸ hc)
    have htrim : ∀ c ∈ trim rawCode, c.utf8Size = 1 := fun c hc => hraw c (mem_trim hc)
    cases hf : MediaKind.from_str (trim rawCode) with
    | panic => exact absurd hf (from_str_ascii_no_panic htrim)
    | ok v =>
      cases v with
      | none => exact ⟨none, by simp [hs, hf]⟩
      | some kind =>
        cases hs2 : splitAtWS (trim rest0) with
        | none => exact ⟨none, by simp [hs, hf, hs2]⟩
        | some pair2 =>
          obtain ⟨rawNames, rest1⟩ := pair2
          obtain ⟨⟨d, e⟩, hde⟩ := flagsFor_ascii htrim hf
          exact ⟨some (⟨splitSep ',' (trim rawNames), trim rest1, d, e⟩, kind),
            by simp [hs, hf, hs2, hde]⟩

theorem find?_congr_mem {α : Type} {p q : α → Bool} :
    ∀ {l : List α}, (∀ a ∈ l, p a = q a) → l.find? p = l.find? q := by
  intro l
  induction l with
  | nil => intro _; rfl
  | cons a as ih =>
    intro h
    have ha : p a = q a := h a (by simp)
    rw [List.find?_cons, List.find?_cons, ha, ih (fun x hx => h x (by simp [hx]))]

theorem find?_isSome_eq_any {α : Type} {p : α → Bool} :
    ∀ {l : List α}, (l.find? p).isSome = l.any p := by
  intro l
  induction l with
  | nil => rfl
  | cons a as ih =>
    rw [List.find?_cons]
    cases ha : p a <;> simp [ha, ih]

theorem stepCodec_apply (names : List (List Char)) (filter : FFMPEGSupport → Bool)
    (m : List Char → Option FFMPEGSupport) (codec : FFMPEGSupport) (k : List Char) :
    stepCodec names filter m codec k =
      if names.contains k && (codec.has_name k && filter codec) then some codec
      else m k := by
  induction names generalizing m with
  | nil => simp [stepCodec]
  | cons n ns ih =>
    have hstep : stepCodec (n :: ns) filter m codec =
        stepCodec ns filter
          (if codec.has_name n && filter codec then insertFound m n codec else m) codec := by
      rw [stepCodec, List.foldl_cons]
      rfl
    rw [hstep, ih, List.contains_cons]
    by_cases hkn : k = n
    · subst hkn
      have hk : (k == k) = true := by simp
      rw [hk, Bool.true_or]
      cases hP : (codec.has_name k && filter codec) <;> simp [insertFound]
    · have hkn2 : (k == n) = false := by simp [hkn]
      rw [hkn2, Bool.false_or]
      by_cases hQ : (codec.has_name n && filter codec) = true
      · have hins : insertFound m n codec k = m k := by
          unfold insertFound
          rw [if_neg hkn]
        rw [if_pos hQ, hins]
      · rw [if_neg hQ]

theorem found_apply (names : List (List Char)) (filter : FFMPEGSupport → Bool) :
    ∀ (codecs : List FFMPEGSupport) (m : List Char → Option FFMPEGSupport) (k : List Char),
    (codecs.foldl (stepCodec names filter) m) k =
      (codecs.reverse.find?
        (fun c => names.contains k && (c.has_name k && filter c))).or (m k) := by
  intro codecs
  induction codecs with
  | nil => intro m k; simp
  | cons c cs ih =>
    intro m k
    rw [List.foldl_cons, ih, List.reverse_cons, List.find?_append, Option.or_assoc]
    congr 1
    rw [stepCodec_apply]
    cases hP : (names.contains k && (c.has_name k && filter c)) with
    | true =>
      rw [if_pos rfl, List.find?_cons, hP]
      rfl
    | false =>
      rw [if_neg (by simp), List.find?_cons, hP]
      rfl

theorem find_codec_characterization (codecs : List FFMPEGSupport)
    (names : List (List Char)) (filter : FFMPEGSupport → Bool) :
    find_codec codecs names filter =
      match names.find? (fun n => codecs.any (fun c => c.has_name n && filter c)) with
      | none => none
      | some n =>
        (codecs.reverse.find? (fun c => c.has_name n && filter c)).map FFMPEGSupport.name := by
  have hfound : ∀ n, (codecs.foldl (stepCodec names filter) (fun _ => none)) n =
      codecs.reverse.find? (fun c => names.contains n && (c.has_name n && filter c)) := by
    intro n
    rw [found_apply, Option.or_none]
  have hcongr :
      names.find?
        (fun n => ((codecs.foldl (stepCodec names filter) (fun _ => none)) n).isSome) =
      names.find? (fun n => codecs.any (fun c => c.has_name n && filter c)) := by
    apply find?_congr_mem
    intro n hn
    rw [hfound n]
    have hc : names.contains n = true := List.elem_iff.mpr hn
    simp only [hc, Bool.true_and]
    rw [find?_isSome_eq_any, List.any_reverse]
  rw [find_codec, hcongr]
  cases hq : names.find? (fun n => codecs.any (fun c => c.has_name n && filter c)) with
  | none => rfl
  | some n =>
    have hn : n ∈ names := List.mem_of_find?_eq_some hq
    have hc : names.contains n = true := List.elem_iff.mpr hn
    dsimp only
    rw [hfound n]
    simp only [hc, Bool.true_and]

theorem isPrefixOf_append_self (l r : List Char) : l.isPrefixOf (l ++ r) = true := by
  induction l with
  | nil => simp [List.isPrefixOf]
  | cons c cs ih => simp [List.isPrefixOf, ih]

theorem filter_head?_none {α : Type} {p : α → Bool} {l : List α}
    (h : ∀ d ∈ l, p d = false) : (l.filter p).head? = none := by
  have : l.filter p = [] := List.filter_eq_nil_iff.mpr (by intro d hd; simp [h d hd])
  rw [this]
  rfl

theorem filter_head?_first {α : Type} {p : α → Bool} :
    ∀ {l : List α} {i : Nat} {d : α}, l.get? i = some d → p d = true →
    (∀ j, j < i → ∀ e, l.get? j = some e → p e = false) →
    (l.filter p).head? = some d := by
  intro l
  induction l with
  | nil => intro i d h; simp at h
  | cons a as ih =>
    intro i d hget hp hfirst
    cases i with
    | zero =>
      simp only [List.get?] at hget
      injection hget with hget
      subst hget
      rw [List.filter_cons, if_pos hp]
      rfl
    | succ i =>
      have hpa : p a = false := hfirst 0 (Nat.succ_pos i) a rfl
      rw [List.filter_cons, if_neg (by simp [hpa])]
      exact ih hget hp (fun j hj e hge => hfirst (j + 1) (Nat.succ_lt_succ hj) e hge)

theorem get_line_some_inv {p : List Char → Bool} :
    ∀ {lines rest : List (List Char)} {l : List Char},
    get_line lines p = some (rest, l) →
    p l = true ∧ ∃ pre, lines = pre ++ l :: rest ∧ ∀ x ∈ pre, p x = false := by
  intro lines
  induction lines with
  | nil => intro rest l h; simp [get_line] at h
  | cons a as ih =>
    intro rest l h
    cases hpa : p a with
    | true =>
      unfold get_line at h
      rw [List.dropWhile_cons, if_neg (by simp [hpa])] at h
      simp only [Option.some.injEq, Prod.mk.injEq] at h
      obtain ⟨h1, h2⟩ := h
      subst h1
      subst h2
      exact ⟨hpa, [], rfl, by simp⟩
    | false =>
      have hstep : get_line (a :: as) p = get_line as p := by
        unfold get_line
        rw [List.dropWhile_cons, if_pos (by simp [hpa])]
      rw [hstep] at h
      obtain ⟨hl, pre, hpre, hall⟩ := ih h
      refine ⟨hl, a :: pre, by simp [hpre], ?_⟩
      intro x hx
      rcases List.mem_cons.mp hx with hx | hx
      · subst hx; exact hpa
      · exact hall x hx

theorem singleton_beq (x y : Char) : (([x] : List Char) == [y]) = (x == y) := by
  show (x == y && true) = (x == y)
  exact Bool.and_true _

theorem flagsFor_nonformat {k : MediaKind} {code : List Char} {d e : Bool}
    (hk : k ≠ .Format) (h : flagsFor k code = some (d, e)) :
    ∃ c0 c1 cs, code = c0 :: c1 :: cs ∧ d = (c0 == 'D') ∧ e = (c1 == 'E') := by
  have key : (match byteSlice code 0 1, byteSlice code 1 2 with
      | some a, some b => some ((a == ['D']), (b == ['E']))
      | _, _ => (none : Option (Bool × Bool))) = some (d, e) →
      ∃ c0 c1 cs, code = c0 :: c1 :: cs ∧ d = (c0 == 'D') ∧ e = (c1 == 'E') := by
    intro hm
    split at hm
    next a b heqa heqb =>
      simp only [Option.some.injEq, Prod.mk.injEq] at hm
      obtain ⟨hd, he⟩ := hm
      obtain ⟨c0, c1, cs, hcode, hus0, hus1, hb⟩ := byteSlice_one_two heqb
      obtain ⟨c, cs2, hcode2, hus, ha⟩ := byteSlice_zero_one heqa
      have hcc : c = c0 := by
        have := hcode2.symm.trans hcode
        injection this
      refine ⟨c0, c1, cs, hcode, ?_, ?_⟩
      · rw [← hd, ha, hcc, singleton_beq]
      · rw [← he, hb, singleton_beq]
    next => simp at hm
  cases k with
  | Format => exact absurd rfl hk
  | Audio => exact key h
  | Video => exact key h
  | Subtitle => exact key h

/-! ## Claims -/

/-- C5: for every successfully decoded capability line, a `Format` row has
`decode` iff the code contains `D` and `encode` iff it contains `E`; every
other kind has `decode` iff character 0 of the code is `D` and `encode` iff
character 1 of the code is `E`. -/
theorem claim_C5_flag_positions : ∀ (line : List Char) (r : FFMPEGSupport) (k : MediaKind),
    decode_line line = .ok (some (r, k)) →
    (k = .Format →
      ((r.decode = true ↔ (codeOf line).contains 'D' = true) ∧
       (r.encode = true ↔ (codeOf line).contains 'E' = true))) ∧
    (k ≠ .Format →
      ((r.decode = true ↔ (codeOf line).get? 0 = some 'D') ∧
       (r.encode = true ↔ (codeOf line).get? 1 = some 'E'))) := by
  intro line r k h
  obtain ⟨hfs, hflag, -⟩ := decode_line_ok_inv h
  constructor
  · intro hk
    subst hk
    unfold flagsFor at hflag
    simp only [Option.some.injEq, Prod.mk.injEq] at hflag
    obtain ⟨hd, he⟩ := hflag
    rw [← hd, ← he]
    exact ⟨Iff.rfl, Iff.rfl⟩
  · intro hk
    obtain ⟨c0, c1, cs, hcode, hd, he⟩ := flagsFor_nonformat hk hflag
    rw [hd, he, hcode]
    constructor
    · simp
    · simp

/-- C9: every capability record produced by the per-line decoder has a
non-empty `names` list, and its canonical name is the first element. -/
theorem claim_C9_names_nonempty : ∀ (line : List Char) (r : FFMPEGSupport) (k : MediaKind),
    decode_line line = .ok (some (r, k)) →
    r.names ≠ [] ∧ r.names.head? = some r.name := by
  intro line r k h
  obtain ⟨-, -, ns, hns⟩ := decode_line_ok_inv h
  have hne : r.names ≠ [] := by
    rw [hns]
    exact splitSep_ne_nil ',' ns
  refine ⟨hne, ?_⟩
  cases hn : r.names with
  | nil => exact absurd hn hne
  | cons a as => simp [FFMPEGSupport.name, hn]

/-- Witness for C5 at the encoder row `DEV.LS h264 H.264`. -/
theorem claim_C5_flag_positions_witness :
    ((⟨[str "h264"], str "H.264", true, true⟩ : FFMPEGSupport).decode = true ↔
      (codeOf (str "DEV.LS h264 H.264")).get? 0 = some 'D') ∧
    ((⟨[str "h264"], str "H.264", true, true⟩ : FFMPEGSupport).encode = true ↔
      (codeOf (str "DEV.LS h264 H.264")).get? 1 = some 'E') :=
  (claim_C5_flag_positions (str "DEV.LS h264 H.264")
    ⟨[str "h264"], str "H.264", true, true⟩ .Video (by decide)).2 (by decide)

/-- Witness for C9 at a concrete decoded row. -/
theorem claim_C9_names_nonempty_witness :
    (⟨[str "264", str "h264"], str "H.264 / AVC", false, false⟩ : FFMPEGSupport).names ≠ [] :=
  (claim_C9_names_nonempty (str "V....D 264,h264          H.264 / AVC")
    ⟨[str "264", str "h264"], str "H.264 / AVC", false, false⟩ .Video (by decide)).1

/-- C4: codec selection scans all records, remembers per candidate name the
last record whose alias set contains it and which passes the filter, then
returns the canonical name for the earliest candidate in list order; in
particular the candidate list picks `libx264` over `h264` regardless of the
listing order of the capability set. -/
theorem claim_C4_selection_priority :
    (∀ (codecs : List FFMPEGSupport) (names : List (List Char))
        (filter : FFMPEGSupport → Bool),
      find_codec codecs names filter =
        match names.find? (fun n => codecs.any (fun c => c.has_name n && filter c)) with
        | none => none
        | some n =>
          (codecs.reverse.find?
            (fun c => c.has_name n && filter c)).map FFMPEGSupport.name) ∧
    find_codec
      [⟨[str "libx264"], str "libx264 encoder", false, true⟩,
       ⟨[str "h264"], str "h264 encoder", false, true⟩]
      [str "h264_nvenc", str "h264_qsv", str "libx264", str "h264"]
      FFMPEGSupport.encode = some (str "libx264") ∧
    find_codec
      [⟨[str "h264"], str "h264 encoder", false, true⟩,
       ⟨[str "libx264"], str "libx264 encoder", false, true⟩]
      [str "h264_nvenc", str "h264_qsv", str "libx264", str "h264"]
      FFMPEGSupport.encode = some (str "libx264") :=
  ⟨find_codec_characterization, by decide, by decide⟩

/-- C6: codec selection returns `none` rather than failing when no record
carries a candidate alias and passes the filter, in particular on the empty
record sequence. -/
theorem claim_C6_none_found :
    (∀ (names : List (List Char)) (filter : FFMPEGSupport → Bool),
      find_codec [] names filter = none) ∧
    (∀ (codecs : List FFMPEGSupport) (names : List (List Char))
        (filter : FFMPEGSupport → Bool),
      (∀ c ∈ codecs, ∀ n ∈ names, ¬(c.has_name n = true ∧ filter c = true)) →
      find_codec codecs names filter = none) := by
  constructor
  · intro names filter
    rw [find_codec_characterization]
    have hnone : names.find? (fun n => List.any [] (fun c => c.has_name n && filter c)) =
        none := by
      rw [List.find?_eq_none]
      intro x hx
      simp
    rw [hnone]
  · intro codecs names filter h
    rw [find_codec_characterization]
    have hnone : names.find? (fun n => codecs.any (fun c => c.has_name n && filter c)) =
        none := by
      rw [List.find?_eq_none]
      intro n hn
      simp only [List.any_eq_true, Bool.and_eq_true, not_exists]
      rintro c hcfilt
      obtain ⟨hc, hcn, hfc⟩ := hcfilt  -- shape check at compile
      exact h c hc n hn ⟨hcn, hfc⟩
    rw [hnone]

/-- Witness for C6 with a record that matches no candidate. -/
theorem claim_C6_none_found_witness :
    find_codec [⟨[str "foo"], [], false, false⟩] [str "bar"] FFMPEGSupport.encode = none :=
  claim_C6_none_found.2 [⟨[str "foo"], [], false, false⟩] [str "bar"]
    FFMPEGSupport.encode (by decide)

/-- C8: on display-information output containing the dimensions line, the
full-screen path extracts the second token `1920x1080` as the resolution and
composes the offset `:0.0+0,0` from the display identifier `:0`. -/
theorem claim_C8_fullscreen_concrete :
    x11_fullscreen [str "screen #0:", str "  dimensions:    1920x1080 pixels"]
      (some (str ":0")) = some (str "1920x1080", str ":0.0+0,0") := by
  decide

/-- C7: token extraction finds the first line satisfying the predicate,
trims it, splits it on runs of whitespace and returns the token at zero-based
index `n`, failing when fewer than `n + 1` tokens exist; in particular index
1 of the `Width` line gives `1024` and index 5 fails. -/
theorem claim_C7_extract_token :
    (∀ (lines : List (List Char)) (p : List Char → Bool) (rest : List (List Char))
        (l : List Char),
      get_line lines p = some (rest, l) →
      p l = true ∧ ∃ pre, lines = pre ++ l :: rest ∧ ∀ x ∈ pre, p x = false) ∧
    (∀ (lines : List (List Char)) (p : List Char → Bool) (n : Nat)
        (rest : List (List Char)) (l : List Char),
      get_line lines p = some (rest, l) →
      (((splitWS (trim l)).length ≤ n → get_nth_from_line lines p n = none) ∧
       (∀ t, (splitWS (trim l)).get? n = some t →
         get_nth_from_line lines p n = some (rest, t)))) ∧
    get_nth_from_line [str "  Width: 1024"] (fun l => substrContains (str "Width:") l) 1 =
      some ([], str "1024") ∧
    get_nth_from_line [str "  Width: 1024"] (fun l => substrContains (str "Width:") l) 5 =
      none := by
  refine ⟨?_, ?_, by decide, by decide⟩
  · intro lines p rest l h
    exact get_line_some_inv h
  · intro lines p n rest l h
    constructor
    · intro hlen
      unfold get_nth_from_line
      rw [h]
      dsimp only
      unfold line_nth
      rw [List.get?_eq_none.mpr hlen]
    · intro t ht
      unfold get_nth_from_line
      rw [h]
      dsimp only
      unfold line_nth
      rw [ht]

/-- Witness for C7 applying the general token characterization on the
`Width` line. -/
theorem claim_C7_extract_token_witness :
    get_nth_from_line [str "  Width: 1024"] (fun l => substrContains (str "Width:") l) 1 =
      some ([], str "1024") :=
  (claim_C7_extract_token.2.1 [str "  Width: 1024"]
    (fun l => substrContains (str "Width:") l) 1 [] (str "  Width: 1024")
    (by decide)).2 (str "1024") (by decide)

/-- C10: with the display variable unset both region-resolution paths yield
no descriptor; with it set to `d`, every offset either path produces starts
with `d` followed by `.0`. -/
theorem claim_C10_display_offsets :
    (∀ lines, x11_fullscreen lines none = none) ∧
    (∀ xp wf, x11_current_window xp wf none = none) ∧
    (∀ lines d res off, x11_fullscreen lines (some d) = some (res, off) →
      (d ++ str ".0").isPrefixOf off = true) ∧
    (∀ xp wf d res off, x11_current_window xp wf (some d) = some (res, off) →
      (d ++ str ".0").isPrefixOf off = true) := by
  refine ⟨?_, ?_, ?_, ?_⟩
  · intro lines
    unfold x11_fullscreen
    split
    · rfl
    · split
      · rfl
      · rfl
  · intro xp wf
    unfold x11_current_window
    split
    · rfl
    · split
      · rfl
      · split
        · rfl
        · split
          · rfl
          · split
            · rfl
            · rfl
  · intro lines d res off h
    unfold x11_fullscreen at h
    split at h
    · exact absurd h (by simp)
    · split at h
      · exact absurd h (by simp)
      · split at h
        · exact absurd h (by simp)
        next scr heq =>
          have h2 : x11_screen (some d) = some (d ++ str ".0") := rfl
          rw [h2] at heq
          injection heq with heq
          simp only [Option.some.injEq, Prod.mk.injEq] at h
          obtain ⟨-, hoff⟩ := h
          rw [← hoff, ← heq]
          exact isPrefixOf_append_self (d ++ str ".0") (str "+0,0")
  · intro xp wf d res off h
    unfold x11_current_window at h
    split at h
    · exact absurd h (by simp)
    · split at h
      · exact absurd h (by simp)
      · split at h
        · exact absurd h (by simp)
        · split at h
          · exact absurd h (by simp)
          · split at h
            · exact absurd h (by simp)
            · split at h
              · exact absurd h (by simp)
              next scr heq =>
                have h2 : x11_screen (some d) = some (d ++ str ".0") := rfl
                rw [h2] at heq
                injection heq with heq
                simp only [Option.some.injEq, Prod.mk.injEq] at h
                obtain ⟨-, hoff⟩ := h
                rw [← hoff, ← heq, List.append_assoc]
                exact isPrefixOf_append_self (d ++ str ".0") _

/-- Witness for C10: the offsets of both paths at concrete inputs carry the
display marker, and the unset-variable cases give no descriptor. -/
theorem claim_C10_display_offsets_witness :
    x11_fullscreen [str "screen #0:", str "  dimensions:    1920x1080 pixels"] none =
      none ∧
    ((str ":0") ++ str ".0").isPrefixOf (str ":0.0+0,0") = true :=
  ⟨claim_C10_display_offsets.1 [str "screen #0:", str "  dimensions:    1920x1080 pixels"],
   claim_C10_display_offsets.2.2.1
     [str "screen #0:", str "  dimensions:    1920x1080 pixels"] (str ":0")
     (str "1920x1080") (str ":0.0+0,0") (by decide)⟩

/-- C1 counterexample: the synthetic line does decode to a Video record with
names `264,h264`, but its decode flag is false (character 0 of the code
`V....D` is `V`, not `D`), so the claimed record does not arise. -/
theorem claim_C1_counterexample :
    ¬ ∃ r : FFMPEGSupport,
        decode_line (str "V....D 264,h264          H.264 / AVC") =
          .ok (some (r, .Video)) ∧
        r.names = [str "264", str "h264"] ∧ r.decode = true ∧ r.encode = false := by
  rintro ⟨r, heq, -, hd, -⟩
  have heval : decode_line (str "V....D 264,h264          H.264 / AVC") =
      .ok (some (⟨[str "264", str "h264"], str "H.264 / AVC", false, false⟩, .Video)) := by
    decide
  rw [heval] at heq
  simp only [PanicOr.ok.injEq, Option.some.injEq, Prod.mk.injEq] at heq
  obtain ⟨hr, -⟩ := heq
  rw [← hr] at hd
  simp at hd

/-- C1 (amended): parsing the synthetic line yields a record with names
`["264","h264"]`, kind Video, and `supportsDecode = false` as well as
`supportsEncode = false` (the non-format flag rule reads characters 0 and 1
of the code `V....D`, which are `V` and `.`). -/
theorem claim_C1_roundtrip :
    decode_line (str "V....D 264,h264          H.264 / AVC") =
      .ok (some (⟨[str "264", str "h264"], str "H.264 / AVC", false, false⟩, .Video)) := by
  decide

/-- C2 counterexample: on a line whose six-byte code token contains a
multi-byte character astride the inspected byte offsets, the decoder aborts
instead of skipping, so it is not total over arbitrary text lines. -/
theorem claim_C2_counterexample :
    ¬ ∃ res, decode_line (str "Aßzzz x y") = .ok res := by
  rintro ⟨res, h⟩
  have heval : decode_line (str "Aßzzz x y") = .panic := by decide
  rw [heval] at h
  exact PanicOr.noConfusion h

/-- C2 (amended): on every line whose leading whitespace-delimited token
consists of single-byte characters (in particular every ASCII line), the
decoder either produces a record or skips the line and never aborts; a line
with no whitespace at all is skipped, and so is a line whose code token
fails the shape classification. -/
theorem claim_C2_decoder_total : ∀ line : List Char,
    (∀ c ∈ (trim line).takeWhile (fun c => !c.isWhitespace), c.utf8Size = 1) →
    (∃ res, decode_line line = .ok res) ∧
    ((trim line).any Char.isWhitespace = false → decode_line line = .ok none) ∧
    (∀ rawCode rest0, splitAtWS (trim line) = some (rawCode, rest0) →
      MediaKind.from_str (trim rawCode) = .ok none → decode_line line = .ok none) := by
  intro line h
  refine ⟨decode_line_ascii_total h, ?_, ?_⟩
  · intro hno
    unfold decode_line
    have hs : splitAtWS (trim line) = none := by
      unfold splitAtWS
      rw [if_neg (by simp [hno])]
    rw [hs]
  · intro rawCode rest0 hsp hfs
    unfold decode_line
    rw [hsp]
    dsimp only
    rw [hfs]

/-- Witness for C2 on an ASCII banner line and an ASCII data line. -/
theorem claim_C2_decoder_total_witness :
    (∃ res, decode_line (str "Encoders: V..... = Video") = .ok res) ∧
    (∃ res, decode_line (str "V....D 264,h264 desc") = .ok res) :=
  ⟨(claim_C2_decoder_total (str "Encoders: V..... = Video") (by decide)).1,
   (claim_C2_decoder_total (str "V....D 264,h264 desc") (by decide)).1⟩

/-- Fixed environment refuting the executability clause of C3: `./x` exists
but is not executable, yet resolution still uses it directly. -/
def envC3 : Env := ⟨none, fun s => s == str "./x", fun _ => false⟩

/-- C3 counterexample: resolution of a `./`-relative name consults only
existence, never executability, so a name that exists but is not executable
is still used directly, falsifying the "exactly when it exists and is
executable" clause. -/
theorem claim_C3_counterexample :
    ¬ (which envC3 (str "./x") = some (str "./x") ↔
        (envC3.pathExists (str "./x") = true ∧ envC3.isExec (str "./x") = true)) := by
  decide

/-- C3 (amended): a name beginning with `./` is used directly exactly when
it exists (executability is not checked); any other outcome falls through to
the `PATH` walk: with the variable unset resolution fails, and otherwise the
first directory in list order whose join with the name exists is returned,
with absence when no directory matches. -/
theorem claim_C3_which_resolution : ∀ (env : Env) (binary : List Char),
    (((str "./").isPrefixOf binary && env.pathExists binary) = true →
      which env binary = some binary) ∧
    (((str "./").isPrefixOf binary && env.pathExists binary) = false →
      (env.path = none → which env binary = none) ∧
      (∀ p, env.path = some p →
        ((∀ d ∈ splitSep ':' p, env.pathExists (pathPush d binary) = false) →
          which env binary = none) ∧
        (∀ i cand,
          ((splitSep ':' p).map (fun d => pathPush d binary)).get? i = some cand →
          env.pathExists cand = true →
          (∀ j, j < i → ∀ e,
            ((splitSep ':' p).map (fun d => pathPush d binary)).get? j = some e →
            env.pathExists e = false) →
          which env binary = some cand))) := by
  intro env binary
  constructor
  · intro hdir
    unfold which
    rw [if_pos hdir]
  · intro hdir
    have hwh : which env binary =
        match env.path with
        | none => none
        | some p =>
          (((splitSep ':' p).map (fun d => pathPush d binary)).filter
            env.pathExists).head? := by
      unfold which
      rw [if_neg (by simp [hdir])]
    refine ⟨?_, ?_⟩
    · intro hp
      rw [hwh, hp]
    · intro p hp
      rw [hwh, hp]
      dsimp only
      constructor
      · intro hall
        apply filter_head?_none
        intro d hd
        obtain ⟨d0, hd0, hpd⟩ := List.mem_map.mp hd
        rw [← hpd]
        exact hall d0 hd0
      · intro i cand hget hex hfirst
        exact filter_head?_first hget hex hfirst

/-- Fixed environment for the C3 witness: the name exists under both `PATH`
directories and the first one wins. -/
def envC3w : Env :=
  ⟨some (str "a:b"), fun s => s == str "a/x" || s == str "b/x", fun _ => true⟩

/-- Witness for C3 applying the amended resolution rule: with `x` present in
both directories `a` and `b`, list order picks `a/x`. -/
theorem claim_C3_which_resolution_witness :
    which envC3w (str "x") = some (str "a/x") :=
  ((((claim_C3_which_resolution envC3w (str "x")).2 (by decide)).2 (str "a:b") rfl).2)
    0 (str "a/x") (by decide) (by decide)
    (by intro j hj; exact absurd hj (Nat.not_lt_zero j))
